import Mathlib

set_option autoImplicit false

/-!
# The pairing index of the SQL schema differ

Shallow embedding of
`migration-engine/connectors/sql-migration-connector/src/sql_schema_differ/differ_database.rs`.

The `DifferDatabase` walks a previous and a next schema snapshot once and
records, per table key and per column key, which side(s) of the diff the
entity occurs on.  Tables are keyed by the flavour-normalized table name,
columns by the raw `(table name, column name)` pair.  The two Rust
`HashMap`s are modelled as association lists with pairwise distinct keys;
`insert` overwrites the binding of an existing key (last write wins), and
iterating `values()` yields the bindings in list order — one admissible
iteration order of the hash map, whose real iteration order is unspecified.
-/

/-- A database column.  The pairing index only consumes the column name, so the
remaining attributes (type, nullability, default, ...) are omitted. -/
structure Column where
  name : String
  deriving DecidableEq, Repr

/-- A database table: a name and its ordered columns, as in the snapshot data
model.  `table_index` / `column_index` are positions in the respective lists. -/
structure Table where
  name : String
  columns : List Column
  deriving DecidableEq, Repr

/-- Modelled from the spec: an enum is a name together with an ordered sequence
of variant labels (`sql_schema_describer`'s enum type is not part of the
sources; only the name takes part in pairing). -/
structure SqlEnum where
  name : String
  variants : List String
  deriving DecidableEq, Repr

/-- A schema snapshot: ordered tables and enums.  `table_walkers()` iterates the
tables in list order together with their indices. -/
structure SqlSchema where
  tables : List Table
  enums : List SqlEnum
  deriving DecidableEq, Repr

/-- Modelled from the spec: `Pair<T>` is a two-sided correspondence carrying a
`previous` and a `next` component. -/
structure Pair (α : Type) where
  previous : α
  next : α
  deriving DecidableEq, Repr

/-- Modelled from the spec: `Pair::transpose` turns a `Pair` of options into an
optional `Pair`, defined exactly when both sides are present (a matched
entity). -/
def Pair.transpose {α : Type} : Pair (Option α) → Option (Pair α)
  | ⟨some p, some n⟩ => some ⟨p, n⟩
  | ⟨some _, none⟩ => none
  | ⟨none, some _⟩ => none
  | ⟨none, none⟩ => none

/-- Modelled from the spec: the injected engine policy (`SqlFlavour`), reduced
to the two predicates the pairing index consumes — the name normalization
(case-folding) policy and the ignored-table predicate. -/
structure Flavour where
  normalize_table_name : String → String
  table_should_be_ignored : String → Bool

/-- Rust `HashMap::insert`, on the association-list model: overwrite the binding of
an existing key, otherwise append a new binding. -/
def insertAL {κ ν : Type} [DecidableEq κ] : List (κ × ν) → κ → ν → List (κ × ν)
  | [], k, v => [(k, v)]
  | p :: m, k, v => if p.1 = k then (k, v) :: m else p :: insertAL m k v

/-- Rust `HashMap` lookup on the association-list model. -/
def lookupAL {κ ν : Type} [DecidableEq κ] : List (κ × ν) → κ → Option ν
  | [], _ => none
  | p :: m, k => if p.1 = k then some p.2 else lookupAL m k

/-- The `previous` component of an optional map entry (`none` when the key is
absent). -/
def prevSide {α : Type} (o : Option (Pair (Option α))) : Option α :=
  match o with
  | some p => p.previous
  | none => none

/-- The `next` component of an optional map entry (`none` when the key is
absent). -/
def nextSide {α : Type} (o : Option (Pair (Option α))) : Option α :=
  match o with
  | some p => p.next
  | none => none

/-- The update `map.entry(k).or_default()` followed by `*entry.next_mut() = Some idx`: the
`previous` side of an existing entry is preserved (a missing entry defaults to
both sides absent) and the `next` side is set to `idx`. -/
def setNext {κ α : Type} [DecidableEq κ] (m : List (κ × Pair (Option α))) (k : κ) (idx : α) :
    List (κ × Pair (Option α)) :=
  insertAL m k ⟨prevSide (lookupAL m k), some idx⟩

/-- The table map: flavour-normalized table name to the two optional table
indices. -/
abbrev TablesMap := List (String × Pair (Option Nat))

/-- The column map: raw `(table name, column name)` to the two optional
`(table index, column index)` pairs. -/
abbrev ColumnsMap := List ((String × String) × Pair (Option (Nat × Nat)))

/-- Inner loop of the first pass of `DifferDatabase::new`: insert every column
of a previous-side table, keyed by the raw `(table.name(), column.name())`. -/
def insertPrevColumns (tname : String) (ti : Nat) : Nat → List Column → ColumnsMap → ColumnsMap
  | _, [], m => m
  | ci, c :: cs, m =>
      insertPrevColumns tname ti (ci + 1) cs (insertAL m (tname, c.name) ⟨some (ti, ci), none⟩)

/-- Inner loop of the second pass of `DifferDatabase::new`: set the `next` side
of every column entry of a next-side table. -/
def setNextColumns (tname : String) (ti : Nat) : Nat → List Column → ColumnsMap → ColumnsMap
  | _, [], m => m
  | ci, c :: cs, m =>
      setNextColumns tname ti (ci + 1) cs (setNext m (tname, c.name) (ti, ci))

/-- First pass of `DifferDatabase::new`: walk the previous schema's tables in
order, inserting each table under its flavour-normalized name and each of its
columns under the raw name pair. -/
def prevPass (fl : Flavour) : Nat → List Table → TablesMap × ColumnsMap → TablesMap × ColumnsMap
  | _, [], st => st
  | i, t :: ts, (tm, cm) =>
      prevPass fl (i + 1) ts
        (insertAL tm (fl.normalize_table_name t.name) ⟨some i, none⟩,
         insertPrevColumns t.name i 0 t.columns cm)

/-- Second pass of `DifferDatabase::new`: walk the next schema's tables in
order, setting the `next` side of each table and column entry. -/
def nextPass (fl : Flavour) : Nat → List Table → TablesMap × ColumnsMap → TablesMap × ColumnsMap
  | _, [], st => st
  | i, t :: ts, (tm, cm) =>
      nextPass fl (i + 1) ts
        (setNext tm (fl.normalize_table_name t.name) i,
         setNextColumns t.name i 0 t.columns cm)

/-- Tables-only restatement of the first pass (the two maps evolve
independently; see `prevPass_fst`). -/
def prevTablesPass (fl : Flavour) : Nat → List Table → TablesMap → TablesMap
  | _, [], tm => tm
  | i, t :: ts, tm =>
      prevTablesPass fl (i + 1) ts (insertAL tm (fl.normalize_table_name t.name) ⟨some i, none⟩)

/-- Tables-only restatement of the second pass (see `nextPass_fst`). -/
def nextTablesPass (fl : Flavour) : Nat → List Table → TablesMap → TablesMap
  | _, [], tm => tm
  | i, t :: ts, tm => nextTablesPass fl (i + 1) ts (setNext tm (fl.normalize_table_name t.name) i)

/-- Columns-only restatement of the first pass (see `prevPass_snd`); the
flavour plays no part in it. -/
def prevColumnsPass : Nat → List Table → ColumnsMap → ColumnsMap
  | _, [], cm => cm
  | i, t :: ts, cm => prevColumnsPass (i + 1) ts (insertPrevColumns t.name i 0 t.columns cm)

/-- Columns-only restatement of the second pass (see `nextPass_snd`); the
flavour plays no part in it. -/
def nextColumnsPass : Nat → List Table → ColumnsMap → ColumnsMap
  | _, [], cm => cm
  | i, t :: ts, cm => nextColumnsPass (i + 1) ts (setNextColumns t.name i 0 t.columns cm)

/-- The pairing index (`DifferDatabase`). -/
structure DifferDatabase where
  schemas : Pair SqlSchema
  flavour : Flavour
  tables : TablesMap
  columns : ColumnsMap

/-- Constructor `DifferDatabase::new`: walk both schemas once, building the table and
column maps. -/
def DifferDatabase.new (schemas : Pair SqlSchema) (flavour : Flavour) : DifferDatabase :=
  let st := nextPass flavour 0 schemas.next.tables (prevPass flavour 0 schemas.previous.tables ([], []))
  { schemas := schemas, flavour := flavour, tables := st.1, columns := st.2 }

/-- Iteration `self.tables.values()`: the table-map bindings in one admissible hash-map
iteration order (the list order of the model). -/
def DifferDatabase.values (d : DifferDatabase) : List (Pair (Option Nat)) :=
  d.tables.map Prod.snd

/-- Body of `created_tables()` applied to one enumeration of
`tables.values()`: keep the entries with no `previous` side and yield their
`next`-side indices (walkers into the next schema). -/
def created_tables_of (vals : List (Pair (Option Nat))) : List Nat :=
  (vals.filter (fun t => t.previous.isNone)).filterMap (fun t => t.next)

/-- Body of `dropped_tables()` exactly as written in the source (lines 69-75):
like `created_tables()` it filters on `previous().is_none()` and yields the
`next`-side indices, walkers into the *next* schema. -/
def dropped_tables_of (vals : List (Pair (Option Nat))) : List Nat :=
  (vals.filter (fun t => t.previous.isNone)).filterMap (fun t => t.next)

/-- Body of `table_pairs()` applied to one enumeration of `tables.values()`:
the entries with both sides present. -/
def table_pairs_of (vals : List (Pair (Option Nat))) : List (Pair Nat) :=
  vals.filterMap Pair.transpose

/-- Accessor `created_tables()`. -/
def DifferDatabase.created_tables (d : DifferDatabase) : List Nat :=
  created_tables_of d.values

/-- Accessor `dropped_tables()`. -/
def DifferDatabase.dropped_tables (d : DifferDatabase) : List Nat :=
  dropped_tables_of d.values

/-- Accessor `table_pairs()`. -/
def DifferDatabase.table_pairs (d : DifferDatabase) : List (Pair Nat) :=
  table_pairs_of d.values

/-- Modelled from the spec: the column entries of the pairing index with both
sides present (the scoped column pairings consumed by the table differ). -/
def DifferDatabase.column_pairs (d : DifferDatabase) : List (Pair (Nat × Nat)) :=
  (d.columns.map Prod.snd).filterMap Pair.transpose

/-- Predicate `table_is_ignored`. -/
def DifferDatabase.table_is_ignored (d : DifferDatabase) (table_name : String) : Bool :=
  table_name == "_prisma_migrations" || d.flavour.table_should_be_ignored table_name

/-- Accessor `previous_tables()`: the previous schema's tables (with their indices) that
are not ignored. -/
def DifferDatabase.previous_tables (d : DifferDatabase) : List (Nat × Table) :=
  d.schemas.previous.tables.enum.filter (fun it => !(d.table_is_ignored it.2.name))

/-- Accessor `next_tables()`: the next schema's tables (with their indices) that are not
ignored. -/
def DifferDatabase.next_tables (d : DifferDatabase) : List (Nat × Table) :=
  d.schemas.next.tables.enum.filter (fun it => !(d.table_is_ignored it.2.name))

/-- Accessor `previous_enums()`. -/
def DifferDatabase.previous_enums (d : DifferDatabase) : List SqlEnum :=
  d.schemas.previous.enums

/-- Accessor `next_enums()`. -/
def DifferDatabase.next_enums (d : DifferDatabase) : List SqlEnum :=
  d.schemas.next.enums

/-- Modelled from the spec: `enums_match` pairs enums by name (the helper is
not part of the sources; pairing is by name). -/
def enums_match (a b : SqlEnum) : Bool :=
  a.name == b.name

/-- Accessor `created_enums`: next-side enums with no previous-side match — a direct
translation of the nested iteration
`next_enums().filter(|next| !previous_enums().any(|previous| enums_match(...)))`. -/
def DifferDatabase.created_enums (d : DifferDatabase) : List SqlEnum :=
  d.next_enums.filter (fun n => !(d.previous_enums.any (fun p => enums_match p n)))

/-- Accessor `dropped_enums`: previous-side enums with no next-side match (nested
iteration, symmetric to `created_enums`). -/
def DifferDatabase.dropped_enums (d : DifferDatabase) : List SqlEnum :=
  d.previous_enums.filter (fun p => !(d.next_enums.any (fun n => enums_match p n)))

/-- Accessor `enum_pairs`: for each previous-side enum, linearly search the next side
for a match (nested iteration). -/
def DifferDatabase.enum_pairs (d : DifferDatabase) : List (Pair SqlEnum) :=
  d.previous_enums.filterMap (fun p =>
    (d.next_enums.find? (fun n => enums_match p n)).map (fun n => ⟨p, n⟩))

/-- Function `List.any` instrumented with the number of predicate evaluations it
performs: `any` calls the predicate once per element until a match is found. -/
def anyCount {α : Type} (p : α → Bool) : List α → Bool × Nat
  | [] => (false, 0)
  | x :: xs =>
      if p x then (true, 1)
      else
        let r := anyCount p xs
        (r.1, r.2 + 1)

/-- Number of `enums_match` evaluations performed by the nested iteration of
`created_enums` on the given enum collections. -/
def created_enums_cost (prevEnums nextEnums : List SqlEnum) : Nat :=
  (nextEnums.map (fun n => (anyCount (fun p => enums_match p n) prevEnums).2)).sum

/-- Index of the last table in the list whose flavour-normalized name is `k`
(the binding that last-write-wins insertion keeps). -/
def lastMatch (fl : Flavour) (k : String) : List Table → Option Nat
  | [] => none
  | t :: ts =>
      match lastMatch fl k ts with
      | some j => some (j + 1)
      | none => if fl.normalize_table_name t.name = k then some 0 else none

/-- Index of the last column in the list whose name is `c`. -/
def lastColInTable (c : String) : List Column → Option Nat
  | [] => none
  | col :: cols =>
      match lastColInTable c cols with
      | some j => some (j + 1)
      | none => if col.name = c then some 0 else none

/-- The `(table index, column index)` that the column-map insertion order keeps
for the raw key `(t, c)`: the last table named `t` (raw name), and within it
the last column named `c`. -/
def lastColMatch (t c : String) : List Table → Option (Nat × Nat)
  | [] => none
  | tb :: ts =>
      match lastColMatch t c ts with
      | some p => some (p.1 + 1, p.2)
      | none =>
          if tb.name = t then (lastColInTable c tb.columns).map (fun ci => (0, ci))
          else none

/-- ASCII lowercasing of a character, as `char::to_ascii_lowercase`. -/
def asciiLowerChar (c : Char) : Char :=
  if 'A' ≤ c && c ≤ 'Z' then Char.ofNat (c.toNat + 32) else c

/-- ASCII lowercasing of a string, as the `to_ascii_lowercase` normalization of
case-insensitive flavours (`test_api.rs`, `normalize_identifier`). -/
def asciiLower (s : String) : String :=
  ⟨s.data.map asciiLowerChar⟩

/-- A case-sensitive flavour: normalization is the identity and no table is
ignored. -/
def idFlavour : Flavour :=
  ⟨fun s => s, fun _ => false⟩

/-- A case-insensitive flavour: normalization lowercases, no table is ignored. -/
def lowercaseFlavour : Flavour :=
  ⟨asciiLower, fun _ => false⟩

/-- A flavour that marks the table name `"zzz"` as ignored. -/
def ignoringFlavour : Flavour :=
  ⟨fun s => s, fun n => n == "zzz"⟩

/-! ## Association-list map lemmas -/

theorem lookupAL_insertAL {κ ν : Type} [DecidableEq κ] (m : List (κ × ν)) (k k' : κ) (v : ν) :
    lookupAL (insertAL m k v) k' = if k = k' then some v else lookupAL m k' := by
  induction m with
  | nil => simp [insertAL, lookupAL]
  | cons p m ih =>
      by_cases h : p.1 = k
      · simp only [insertAL, if_pos h, lookupAL]
        by_cases hk : k = k' <;> simp [hk, h, lookupAL]
      · simp only [insertAL, if_neg h, lookupAL]
        by_cases hp : p.1 = k'
        · have : ¬ k = k' := fun e => h (e ▸ hp)
          simp [hp, this]
        · simp [hp, ih]

theorem mem_keys_insertAL {κ ν : Type} [DecidableEq κ] (m : List (κ × ν)) (k k' : κ) (v : ν)
    (h : k' ∈ (insertAL m k v).map Prod.fst) : k' ∈ m.map Prod.fst ∨ k' = k := by
  induction m with
  | nil => simp [insertAL] at h; right; exact h
  | cons p m ih =>
      by_cases hp : p.1 = k
      · simp only [insertAL, if_pos hp, List.map_cons, List.mem_cons] at h
        rcases h with h | h
        · right; exact h
        · left; rw [List.map_cons]; exact List.mem_cons_of_mem _ h
      · simp only [insertAL, if_neg hp, List.map_cons, List.mem_cons] at h
        rcases h with h | h
        · left; rw [List.map_cons]; exact List.mem_cons.2 (Or.inl h)
        · rcases ih h with h' | h'
          · left; rw [List.map_cons]; exact List.mem_cons_of_mem _ h'
          · right; exact h'

theorem nodup_keys_insertAL {κ ν : Type} [DecidableEq κ] (m : List (κ × ν)) (k : κ) (v : ν)
    (h : (m.map Prod.fst).Nodup) : ((insertAL m k v).map Prod.fst).Nodup := by
  induction m with
  | nil => simp [insertAL]
  | cons p m ih =>
      rw [List.map_cons, List.nodup_cons] at h
      by_cases hp : p.1 = k
      · simp only [insertAL, if_pos hp, List.map_cons, List.nodup_cons]
        exact ⟨hp ▸ h.1, h.2⟩
      · simp only [insertAL, if_neg hp, List.map_cons, List.nodup_cons]
        refine ⟨fun hmem => ?_, ih h.2⟩
        rcases mem_keys_insertAL m k p.1 v hmem with h' | h'
        · exact h.1 h'
        · exact hp h'

theorem mem_of_lookupAL {κ ν : Type} [DecidableEq κ] (m : List (κ × ν)) (k : κ) (v : ν)
    (h : lookupAL m k = some v) : (k, v) ∈ m := by
  induction m with
  | nil => simp [lookupAL] at h
  | cons p m ih =>
      simp only [lookupAL] at h
      by_cases hp : p.1 = k
      · rw [if_pos hp] at h
        have hv : p.2 = v := Option.some.inj h
        have : p = (k, v) := by cases p; simp_all
        rw [← this]; exact List.mem_cons_self _ _
      · rw [if_neg hp] at h
        exact List.mem_cons_of_mem _ (ih h)

theorem lookupAL_of_mem {κ ν : Type} [DecidableEq κ] (m : List (κ × ν)) (k : κ) (v : ν)
    (hnd : (m.map Prod.fst).Nodup) (h : (k, v) ∈ m) : lookupAL m k = some v := by
  induction m with
  | nil => simp at h
  | cons p m ih =>
      rw [List.map_cons, List.nodup_cons] at hnd
      rcases List.mem_cons.1 h with h' | h'
      · rw [← h']; simp [lookupAL]
      · have hk : k ∈ m.map Prod.fst := by
          exact List.mem_map.2 ⟨(k, v), h', rfl⟩
        have hp : p.1 ≠ k := fun e => hnd.1 (e ▸ hk)
        simp only [lookupAL, if_neg hp]
        exact ih hnd.2 h'

theorem lookupAL_setNext {κ α : Type} [DecidableEq κ] (m : List (κ × Pair (Option α)))
    (k k' : κ) (idx : α) :
    lookupAL (setNext m k idx) k' =
      if k = k' then some ⟨prevSide (lookupAL m k), some idx⟩ else lookupAL m k' := by
  simp [setNext, lookupAL_insertAL]

theorem prevSide_lookupAL_setNext {κ α : Type} [DecidableEq κ] (m : List (κ × Pair (Option α)))
    (k k' : κ) (idx : α) :
    prevSide (lookupAL (setNext m k idx) k') = prevSide (lookupAL m k') := by
  rw [lookupAL_setNext]
  by_cases h : k = k'
  · rw [if_pos h, h]; rfl
  · rw [if_neg h]

theorem nodup_keys_setNext {κ α : Type} [DecidableEq κ] (m : List (κ × Pair (Option α)))
    (k : κ) (idx : α) (h : (m.map Prod.fst).Nodup) :
    ((setNext m k idx).map Prod.fst).Nodup :=
  nodup_keys_insertAL m k _ h

/-! ## Projections of the two passes -/

theorem prevPass_fst (fl : Flavour) (ts : List Table) :
    ∀ (i : Nat) (st : TablesMap × ColumnsMap),
    (prevPass fl i ts st).1 = prevTablesPass fl i ts st.1 := by
  induction ts with
  | nil => intro i st; rfl
  | cons t ts ih =>
      intro i st
      obtain ⟨tm, cm⟩ := st
      simp only [prevPass, prevTablesPass]
      exact ih _ _

theorem prevPass_snd (fl : Flavour) (ts : List Table) :
    ∀ (i : Nat) (st : TablesMap × ColumnsMap),
    (prevPass fl i ts st).2 = prevColumnsPass i ts st.2 := by
  induction ts with
  | nil => intro i st; rfl
  | cons t ts ih =>
      intro i st
      obtain ⟨tm, cm⟩ := st
      simp only [prevPass, prevColumnsPass]
      exact ih _ _

theorem nextPass_fst (fl : Flavour) (ts : List Table) :
    ∀ (i : Nat) (st : TablesMap × ColumnsMap),
    (nextPass fl i ts st).1 = nextTablesPass fl i ts st.1 := by
  induction ts with
  | nil => intro i st; rfl
  | cons t ts ih =>
      intro i st
      obtain ⟨tm, cm⟩ := st
      simp only [nextPass, nextTablesPass]
      exact ih _ _

theorem nextPass_snd (fl : Flavour) (ts : List Table) :
    ∀ (i : Nat) (st : TablesMap × ColumnsMap),
    (nextPass fl i ts st).2 = nextColumnsPass i ts st.2 := by
  induction ts with
  | nil => intro i st; rfl
  | cons t ts ih =>
      intro i st
      obtain ⟨tm, cm⟩ := st
      simp only [nextPass, nextColumnsPass]
      exact ih _ _

/-- The table map built by `DifferDatabase::new`, through the split passes. -/
theorem new_tables_eq (s : Pair SqlSchema) (fl : Flavour) :
    (DifferDatabase.new s fl).tables =
      nextTablesPass fl 0 s.next.tables (prevTablesPass fl 0 s.previous.tables []) := by
  show (nextPass fl 0 s.next.tables (prevPass fl 0 s.previous.tables ([], []))).1 = _
  rw [nextPass_fst, prevPass_fst]

/-- The column map built by `DifferDatabase::new`, through the split passes. -/
theorem new_columns_eq (s : Pair SqlSchema) (fl : Flavour) :
    (DifferDatabase.new s fl).columns =
      nextColumnsPass 0 s.next.tables (prevColumnsPass 0 s.previous.tables []) := by
  show (nextPass fl 0 s.next.tables (prevPass fl 0 s.previous.tables ([], []))).2 = _
  rw [nextPass_snd, prevPass_snd]

/-! ## Lookup characterization of the passes -/

theorem lookupAL_prevTablesPass (fl : Flavour) (k : String) (ts : List Table) :
    ∀ (i : Nat) (tm : TablesMap),
    lookupAL (prevTablesPass fl i ts tm) k =
      match lastMatch fl k ts with
      | some j => some ⟨some (i + j), none⟩
      | none => lookupAL tm k := by
  induction ts with
  | nil => intro i tm; rfl
  | cons t ts ih =>
      intro i tm
      simp only [prevTablesPass, lastMatch]
      rw [ih]
      cases h : lastMatch fl k ts with
      | some j =>
          have : i + 1 + j = i + (j + 1) := by omega
          simp [this]
      | none =>
          by_cases hk : fl.normalize_table_name t.name = k
          · simp [lookupAL_insertAL, hk]
          · simp [lookupAL_insertAL, hk]

theorem lookupAL_nextTablesPass (fl : Flavour) (k : String) (ts : List Table) :
    ∀ (i : Nat) (tm : TablesMap),
    lookupAL (nextTablesPass fl i ts tm) k =
      match lastMatch fl k ts with
      | some j => some ⟨prevSide (lookupAL tm k), some (i + j)⟩
      | none => lookupAL tm k := by
  induction ts with
  | nil => intro i tm; rfl
  | cons t ts ih =>
      intro i tm
      simp only [nextTablesPass, lastMatch]
      rw [ih]
      cases h : lastMatch fl k ts with
      | some j =>
          have harith : i + 1 + j = i + (j + 1) := by omega
          rw [prevSide_lookupAL_setNext]
          simp [harith]
      | none =>
          by_cases hk : fl.normalize_table_name t.name = k
          · rw [lookupAL_setNext]
            simp [hk]
          · rw [lookupAL_setNext]
            simp [hk]

theorem lookupAL_insertPrevColumns (tname : String) (ti : Nat) (t c : String) (cs : List Column) :
    ∀ (ci : Nat) (m : ColumnsMap),
    lookupAL (insertPrevColumns tname ti ci cs m) (t, c) =
      if tname = t then
        match lastColInTable c cs with
        | some j => some ⟨some (ti, ci + j), none⟩
        | none => lookupAL m (t, c)
      else lookupAL m (t, c) := by
  induction cs with
  | nil =>
      intro ci m
      simp only [insertPrevColumns, lastColInTable]
      split <;> rfl
  | cons col cols ih =>
      intro ci m
      simp only [insertPrevColumns, lastColInTable]
      rw [ih]
      by_cases ht : tname = t
      · cases h : lastColInTable c cols with
        | some j =>
            have : ci + 1 + j = ci + (j + 1) := by omega
            simp [ht, this]
        | none =>
            by_cases hc : col.name = c
            · rw [lookupAL_insertAL]
              simp [ht, hc]
            · rw [lookupAL_insertAL]
              have : ¬ ((tname, col.name) = (t, c)) := by
                simp [Prod.ext_iff, hc]
              simp [ht, hc, this]
      · rw [lookupAL_insertAL]
        have : ¬ ((tname, col.name) = (t, c)) := by
          simp [Prod.ext_iff, ht]
        simp [ht, this]

theorem lookupAL_prevColumnsPass (t c : String) (ts : List Table) :
    ∀ (i : Nat) (m : ColumnsMap),
    lookupAL (prevColumnsPass i ts m) (t, c) =
      match lastColMatch t c ts with
      | some p => some ⟨some (i + p.1, p.2), none⟩
      | none => lookupAL m (t, c) := by
  induction ts with
  | nil => intro i m; rfl
  | cons tb ts ih =>
      intro i m
      simp only [prevColumnsPass, lastColMatch]
      rw [ih]
      cases h : lastColMatch t c ts with
      | some p =>
          have : i + 1 + p.1 = i + (p.1 + 1) := by omega
          simp [this]
      | none =>
          rw [lookupAL_insertPrevColumns]
          by_cases ht : tb.name = t
          · cases hc : lastColInTable c tb.columns with
            | some j => simp [ht, hc]
            | none => simp [ht, hc]
          · simp [ht]

theorem lookupAL_setNextColumns (tname : String) (ti : Nat) (t c : String) (cs : List Column) :
    ∀ (ci : Nat) (m : ColumnsMap),
    lookupAL (setNextColumns tname ti ci cs m) (t, c) =
      if tname = t then
        match lastColInTable c cs with
        | some j => some ⟨prevSide (lookupAL m (t, c)), some (ti, ci + j)⟩
        | none => lookupAL m (t, c)
      else lookupAL m (t, c) := by
  induction cs with
  | nil =>
      intro ci m
      simp only [setNextColumns, lastColInTable]
      split <;> rfl
  | cons col cols ih =>
      intro ci m
      simp only [setNextColumns, lastColInTable]
      rw [ih]
      by_cases ht : tname = t
      · cases h : lastColInTable c cols with
        | some j =>
            have harith : ci + 1 + j = ci + (j + 1) := by omega
            rw [prevSide_lookupAL_setNext]
            simp [ht, harith]
        | none =>
            by_cases hc : col.name = c
            · rw [lookupAL_setNext]
              simp [ht, hc]
            · rw [lookupAL_setNext]
              have : ¬ ((tname, col.name) = (t, c)) := by
                simp [Prod.ext_iff, hc]
              simp [ht, hc, this]
      · rw [lookupAL_setNext]
        have : ¬ ((tname, col.name) = (t, c)) := by
          simp [Prod.ext_iff, ht]
        simp [ht, this]

theorem prevSide_lookupAL_setNextColumns (tname : String) (ti : Nat) (t c : String)
    (cs : List Column) (ci : Nat) (m : ColumnsMap) :
    prevSide (lookupAL (setNextColumns tname ti ci cs m) (t, c)) =
      prevSide (lookupAL m (t, c)) := by
  rw [lookupAL_setNextColumns]
  by_cases ht : tname = t
  · cases hc : lastColInTable c cs with
    | some j => simp [ht, hc, prevSide]
    | none => simp [ht, hc]
  · simp [ht]

theorem lookupAL_nextColumnsPass (t c : String) (ts : List Table) :
    ∀ (i : Nat) (m : ColumnsMap),
    lookupAL (nextColumnsPass i ts m) (t, c) =
      match lastColMatch t c ts with
      | some p => some ⟨prevSide (lookupAL m (t, c)), some (i + p.1, p.2)⟩
      | none => lookupAL m (t, c) := by
  induction ts with
  | nil => intro i m; rfl
  | cons tb ts ih =>
      intro i m
      simp only [nextColumnsPass, lastColMatch]
      rw [ih]
      cases h : lastColMatch t c ts with
      | some p =>
          have harith : i + 1 + p.1 = i + (p.1 + 1) := by omega
          rw [prevSide_lookupAL_setNextColumns]
          simp [harith]
      | none =>
          rw [lookupAL_setNextColumns]
          by_cases ht : tb.name = t
          · cases hc : lastColInTable c tb.columns with
            | some j => simp [ht, hc]
            | none => simp [ht, hc]
          · simp [ht]

/-! ## Key distinctness of the built maps -/

theorem nodup_keys_insertPrevColumns (tname : String) (ti : Nat) (cs : List Column) :
    ∀ (ci : Nat) (m : ColumnsMap), (m.map Prod.fst).Nodup →
      ((insertPrevColumns tname ti ci cs m).map Prod.fst).Nodup := by
  induction cs with
  | nil => intro ci m h; exact h
  | cons col cols ih => intro ci m h; exact ih _ _ (nodup_keys_insertAL _ _ _ h)

theorem nodup_keys_setNextColumns (tname : String) (ti : Nat) (cs : List Column) :
    ∀ (ci : Nat) (m : ColumnsMap), (m.map Prod.fst).Nodup →
      ((setNextColumns tname ti ci cs m).map Prod.fst).Nodup := by
  induction cs with
  | nil => intro ci m h; exact h
  | cons col cols ih => intro ci m h; exact ih _ _ (nodup_keys_setNext _ _ _ h)

theorem nodup_keys_prevTablesPass (fl : Flavour) (ts : List Table) :
    ∀ (i : Nat) (tm : TablesMap), (tm.map Prod.fst).Nodup →
      ((prevTablesPass fl i ts tm).map Prod.fst).Nodup := by
  induction ts with
  | nil => intro i tm h; exact h
  | cons t ts ih => intro i tm h; exact ih _ _ (nodup_keys_insertAL _ _ _ h)

theorem nodup_keys_nextTablesPass (fl : Flavour) (ts : List Table) :
    ∀ (i : Nat) (tm : TablesMap), (tm.map Prod.fst).Nodup →
      ((nextTablesPass fl i ts tm).map Prod.fst).Nodup := by
  induction ts with
  | nil => intro i tm h; exact h
  | cons t ts ih => intro i tm h; exact ih _ _ (nodup_keys_setNext _ _ _ h)

theorem nodup_keys_prevColumnsPass (ts : List Table) :
    ∀ (i : Nat) (cm : ColumnsMap), (cm.map Prod.fst).Nodup →
      ((prevColumnsPass i ts cm).map Prod.fst).Nodup := by
  induction ts with
  | nil => intro i cm h; exact h
  | cons t ts ih => intro i cm h; exact ih _ _ (nodup_keys_insertPrevColumns _ _ _ _ _ h)

theorem nodup_keys_nextColumnsPass (ts : List Table) :
    ∀ (i : Nat) (cm : ColumnsMap), (cm.map Prod.fst).Nodup →
      ((nextColumnsPass i ts cm).map Prod.fst).Nodup := by
  induction ts with
  | nil => intro i cm h; exact h
  | cons t ts ih => intro i cm h; exact ih _ _ (nodup_keys_setNextColumns _ _ _ _ _ h)

theorem nodup_keys_new_tables (s : Pair SqlSchema) (fl : Flavour) :
    ((DifferDatabase.new s fl).tables.map Prod.fst).Nodup := by
  rw [new_tables_eq]
  exact nodup_keys_nextTablesPass _ _ _ _ (nodup_keys_prevTablesPass _ _ _ _ (by simp))

theorem nodup_keys_new_columns (s : Pair SqlSchema) (fl : Flavour) :
    ((DifferDatabase.new s fl).columns.map Prod.fst).Nodup := by
  rw [new_columns_eq]
  exact nodup_keys_nextColumnsPass _ _ _ (nodup_keys_prevColumnsPass _ _ _ (by simp))

/-! ## Lookup characterization of the built maps -/

/-- A table-map lookup after `DifferDatabase::new`: the `previous` side is the
last previous-side table whose normalized name is the key, the `next` side the
last such next-side table; the key is absent when neither exists. -/
theorem lookupAL_new_tables (s : Pair SqlSchema) (fl : Flavour) (k : String) :
    lookupAL (DifferDatabase.new s fl).tables k =
      if lastMatch fl k s.previous.tables = none ∧ lastMatch fl k s.next.tables = none then none
      else some ⟨lastMatch fl k s.previous.tables, lastMatch fl k s.next.tables⟩ := by
  rw [new_tables_eq, lookupAL_nextTablesPass, lookupAL_prevTablesPass]
  cases hn : lastMatch fl k s.next.tables with
  | some j =>
      cases hp : lastMatch fl k s.previous.tables with
      | some j' => simp [hp, hn, prevSide]
      | none => simp [hp, hn, prevSide, lookupAL]
  | none =>
      cases hp : lastMatch fl k s.previous.tables with
      | some j' => simp [hp, hn]
      | none => simp [hp, hn, lookupAL]

/-- The `previous` side of a table-map lookup is the last previous-side table
normalizing to the key. -/
theorem prevSide_new_tables (s : Pair SqlSchema) (fl : Flavour) (k : String) :
    prevSide (lookupAL (DifferDatabase.new s fl).tables k) =
      lastMatch fl k s.previous.tables := by
  rw [lookupAL_new_tables]
  by_cases h : lastMatch fl k s.previous.tables = none ∧ lastMatch fl k s.next.tables = none
  · rw [if_pos h, h.1]; rfl
  · rw [if_neg h]; rfl

/-- A column-map lookup after `DifferDatabase::new`, in terms of the raw-name
match positions on the two sides. -/
theorem lookupAL_new_columns (s : Pair SqlSchema) (fl : Flavour) (t c : String) :
    lookupAL (DifferDatabase.new s fl).columns (t, c) =
      if lastColMatch t c s.previous.tables = none ∧ lastColMatch t c s.next.tables = none then
        none
      else some ⟨lastColMatch t c s.previous.tables, lastColMatch t c s.next.tables⟩ := by
  rw [new_columns_eq, lookupAL_nextColumnsPass, lookupAL_prevColumnsPass]
  cases hn : lastColMatch t c s.next.tables with
  | some p =>
      cases hp : lastColMatch t c s.previous.tables with
      | some p' => simp [hp, hn, prevSide]
      | none => simp [hp, hn, prevSide, lookupAL]
  | none =>
      cases hp : lastColMatch t c s.previous.tables with
      | some p' => simp [hp, hn]
      | none => simp [hp, hn, lookupAL]

/-! ## Properties of the match positions -/

theorem lastMatch_spec (fl : Flavour) (k : String) (ts : List Table) :
    ∀ (j : Nat), lastMatch fl k ts = some j →
      ∃ tb, ts[j]? = some tb ∧ fl.normalize_table_name tb.name = k := by
  induction ts with
  | nil => intro j h; simp [lastMatch] at h
  | cons t ts ih =>
      intro j h
      simp only [lastMatch] at h
      cases h' : lastMatch fl k ts with
      | some j2 =>
          rw [h'] at h
          obtain rfl : j2 + 1 = j := Option.some.inj h
          obtain ⟨tb, htb, hk⟩ := ih j2 h'
          exact ⟨tb, by simpa using htb, hk⟩
      | none =>
          rw [h'] at h
          by_cases hk : fl.normalize_table_name t.name = k
          · rw [if_pos hk] at h
            obtain rfl : 0 = j := Option.some.inj h
            exact ⟨t, by simp, hk⟩
          · rw [if_neg hk] at h
            exact absurd h (by simp)

theorem lastMatch_eq_some (fl : Flavour) (k : String) (ts : List Table) :
    ∀ (j : Nat) (tb : Table), ts[j]? = some tb → fl.normalize_table_name tb.name = k →
      (∀ (j' : Nat) (tb' : Table), j < j' → ts[j']? = some tb' →
        fl.normalize_table_name tb'.name ≠ k) →
      lastMatch fl k ts = some j := by
  induction ts with
  | nil => intro j tb hj _ _; simp at hj
  | cons t ts ih =>
      intro j tb hj hk hlast
      cases j with
      | zero =>
          have ht : t = tb := by simpa using hj
          have hnone : lastMatch fl k ts = none := by
            cases h' : lastMatch fl k ts with
            | none => rfl
            | some j2 =>
                obtain ⟨tb2, htb2, hk2⟩ := lastMatch_spec fl k ts j2 h'
                exact absurd hk2 (hlast (j2 + 1) tb2 (Nat.succ_pos _) (by simpa using htb2))
          simp only [lastMatch, hnone]
          rw [if_pos (ht ▸ hk)]
      | succ j1 =>
          have hj' : ts[j1]? = some tb := by simpa using hj
          have hlast' : ∀ (j' : Nat) (tb' : Table), j1 < j' → ts[j']? = some tb' →
              fl.normalize_table_name tb'.name ≠ k := by
            intro j' tb' hlt hget
            exact hlast (j' + 1) tb' (by omega) (by simpa using hget)
          simp only [lastMatch, ih j1 tb hj' hk hlast']

theorem lastMatch_of_nodup (fl : Flavour) (k : String) (ts : List Table) (i : Nat) (tb : Table)
    (hnd : (ts.map (fun tb' => fl.normalize_table_name tb'.name)).Nodup)
    (hi : ts[i]? = some tb) (hk : fl.normalize_table_name tb.name = k) :
    lastMatch fl k ts = some i := by
  apply lastMatch_eq_some fl k ts i tb hi hk
  intro j' tb' hlt hget hk'
  have hlen : j' < ts.length := by
    cases h : ts[j']? with
    | none => rw [h] at hget; exact absurd hget (by simp)
    | some x => exact (List.getElem?_eq_some.1 h).1
  have h1 : (ts.map (fun tb' => fl.normalize_table_name tb'.name))[i]? = some k := by
    rw [List.getElem?_map, hi]
    simp [hk]
  have h2 : (ts.map (fun tb' => fl.normalize_table_name tb'.name))[j']? = some k := by
    rw [List.getElem?_map, hget]
    simp [hk']
  have := List.nodup_iff_getElem?_ne_getElem?.1 hnd i j' hlt (by simpa using hlen)
  rw [h1, h2] at this
  exact this rfl

theorem lastColMatch_spec (t c : String) (ts : List Table) :
    ∀ (p : Nat × Nat), lastColMatch t c ts = some p →
      ∃ tb, ts[p.1]? = some tb ∧ tb.name = t ∧ lastColInTable c tb.columns = some p.2 := by
  induction ts with
  | nil => intro p h; simp [lastColMatch] at h
  | cons tb ts ih =>
      intro p h
      simp only [lastColMatch] at h
      cases h' : lastColMatch t c ts with
      | some q =>
          rw [h'] at h
          obtain rfl : (q.1 + 1, q.2) = p := Option.some.inj h
          obtain ⟨tb2, h1, h2, h3⟩ := ih q h'
          exact ⟨tb2, by simpa using h1, h2, h3⟩
      | none =>
          rw [h'] at h
          by_cases ht : tb.name = t
          · rw [if_pos ht] at h
            cases hc : lastColInTable c tb.columns with
            | some ci =>
                rw [hc] at h
                obtain rfl : ((0 : Nat), ci) = p := by simpa using h
                exact ⟨tb, by simp, ht, hc⟩
            | none => rw [hc] at h; simp at h
          · rw [if_neg ht] at h; simp at h

/-! ## Shared facts about the instrumented enum iteration -/

theorem anyCount_fst {α : Type} (p : α → Bool) (l : List α) : (anyCount p l).1 = l.any p := by
  induction l with
  | nil => rfl
  | cons x xs ih =>
      by_cases h : p x
      · simp [anyCount, h]
      · simp [anyCount, h, ih]

/-- The instrumented iteration decides exactly what `created_enums` decides. -/
theorem created_enums_eq_anyCount (d : DifferDatabase) :
    d.created_enums =
      d.next_enums.filter (fun n => !(anyCount (fun p => enums_match p n) d.previous_enums).1) := by
  simp [DifferDatabase.created_enums, anyCount_fst]

theorem anyCount_snd_of_all_false {α : Type} (p : α → Bool) (l : List α)
    (h : ∀ x ∈ l, p x = false) : (anyCount p l).2 = l.length := by
  induction l with
  | nil => rfl
  | cons x xs ih =>
      have hx : p x = false := h x (List.mem_cons_self x xs)
      simp [anyCount, hx, ih (fun y hy => h y (List.mem_cons_of_mem _ hy))]

/-- On `n` previous-side enums named `"x"` and `n` next-side enums named `"y"`
(no matches), the nested iteration of `created_enums` evaluates `enums_match`
`n * n` times. -/
theorem created_enums_cost_replicate (n : Nat) :
    created_enums_cost (List.replicate n ⟨"x", []⟩) (List.replicate n ⟨"y", []⟩) = n * n := by
  unfold created_enums_cost
  have hall : ∀ e ∈ List.replicate n (SqlEnum.mk "x" []),
      enums_match e ⟨"y", []⟩ = false := by
    intro e he
    rw [List.eq_of_mem_replicate he]
    decide
  rw [List.map_replicate, anyCount_snd_of_all_false _ _ hall, List.length_replicate,
    List.sum_replicate, smul_eq_mul]

/-! ## The claims -/

/-- C1: the spec says `dropped_tables()` yields exactly the previous-only
tables, but the source (lines 69-75) filters on `previous().is_none()` and
yields next-schema walkers, exactly like `created_tables()`.  With
previous = {table "a"}, next = {} it yields nothing although "a" is
previous-only (second conjunct exhibits the previous-only entry), and with
previous = {}, next = {table "b"} it yields the next-only table "b". -/
theorem C1_dropped_tables_bug :
    (DifferDatabase.new ⟨⟨[⟨"a", []⟩], []⟩, ⟨[], []⟩⟩ idFlavour).dropped_tables = [] ∧
    (DifferDatabase.new ⟨⟨[⟨"a", []⟩], []⟩, ⟨[], []⟩⟩ idFlavour).tables =
      [("a", ⟨some 0, none⟩)] ∧
    (DifferDatabase.new ⟨⟨[], []⟩, ⟨[⟨"b", []⟩], []⟩⟩ idFlavour).dropped_tables = [0] ∧
    (DifferDatabase.new ⟨⟨[], []⟩, ⟨[⟨"b", []⟩], []⟩⟩ idFlavour).tables =
      [("b", ⟨none, some 0⟩)] := by
  decide

/-- C2: the three outputs are specified to be pairwise disjoint, but because
`dropped_tables()` duplicates the body of `created_tables()`, the next-only
key "c" is yielded by both. -/
theorem C2_disjointness_bug :
    (DifferDatabase.new ⟨⟨[], []⟩, ⟨[⟨"c", []⟩], []⟩⟩ idFlavour).created_tables = [0] ∧
    (DifferDatabase.new ⟨⟨[], []⟩, ⟨[⟨"c", []⟩], []⟩⟩ idFlavour).dropped_tables = [0] := by
  decide

/-- C3 counterexample: under the case-insensitive flavour the tables "Foo" and
"foo" pair, and their columns named "id" are equal under that policy, yet no
column entry has both sides present: the column map is keyed by the raw
`(table name, column name)`, not by normalized names. -/
theorem C3_counterexample :
    (DifferDatabase.new ⟨⟨[⟨"Foo", [⟨"id"⟩]⟩], []⟩, ⟨[⟨"foo", [⟨"id"⟩]⟩], []⟩⟩
      lowercaseFlavour).table_pairs = [⟨0, 0⟩] ∧
    (DifferDatabase.new ⟨⟨[⟨"Foo", [⟨"id"⟩]⟩], []⟩, ⟨[⟨"foo", [⟨"id"⟩]⟩], []⟩⟩
      lowercaseFlavour).column_pairs = [] := by
  decide

/-- C3 amended: the flavour's case-folding policy is applied to table pairing
only; column pairing is keyed by raw names and is entirely independent of the
flavour. -/
theorem C3_columns_ignore_flavour (fl fl' : Flavour) (s : Pair SqlSchema) :
    (DifferDatabase.new s fl).columns = (DifferDatabase.new s fl').columns := by
  rw [new_columns_eq, new_columns_eq]

/-- C4: when two distinct previous-side table names normalize to the same key,
the pairing index keeps the one occurring last in the previous snapshot's
iteration order (last-write-wins): the `previous` side stored under the key is
the index of the last table normalizing to it. -/
theorem C4_last_write_wins (fl : Flavour) (s : Pair SqlSchema) (k : String)
    (i j : Nat) (ti tj : Table)
    (hij : i < j)
    (hi : s.previous.tables[i]? = some ti)
    (hj : s.previous.tables[j]? = some tj)
    (hki : fl.normalize_table_name ti.name = k)
    (hkj : fl.normalize_table_name tj.name = k)
    (hlast : ∀ (j' : Nat) (tb' : Table), j < j' → s.previous.tables[j']? = some tb' →
      fl.normalize_table_name tb'.name ≠ k) :
    prevSide (lookupAL (DifferDatabase.new s fl).tables k) = some j := by
  rw [prevSide_new_tables]
  exact lastMatch_eq_some fl k _ j tj hj hkj hlast

/-- C4 witness: previous = {"Foo", "foo"} under the case-insensitive flavour;
the entry for key "foo" keeps table index 1. -/
theorem C4_witness :
    prevSide (lookupAL (DifferDatabase.new ⟨⟨[⟨"Foo", []⟩, ⟨"foo", []⟩], []⟩, ⟨[], []⟩⟩
      lowercaseFlavour).tables "foo") = some 1 := by
  apply C4_last_write_wins lowercaseFlavour _ "foo" 0 1 ⟨"Foo", []⟩ ⟨"foo", []⟩
  · decide
  · decide
  · decide
  · decide
  · decide
  · intro j' tb' hlt hget
    match j' with
    | 0 => exact absurd hlt (by decide)
    | 1 => exact absurd hlt (by decide)
    | (m + 2) => simp at hget

/-- C5: diffing a valid snapshot (no two tables share a normalized name)
against itself yields no created and no dropped tables, and every table of the
snapshot appears, paired with itself, in `table_pairs()`. -/
theorem C5_self_diff (fl : Flavour) (s : SqlSchema)
    (hvalid : (s.tables.map (fun tb => fl.normalize_table_name tb.name)).Nodup) :
    (DifferDatabase.new ⟨s, s⟩ fl).created_tables = [] ∧
    (DifferDatabase.new ⟨s, s⟩ fl).dropped_tables = [] ∧
    ∀ i, i < s.tables.length →
      (⟨i, i⟩ : Pair Nat) ∈ (DifferDatabase.new ⟨s, s⟩ fl).table_pairs := by
  have hval : ∀ v ∈ (DifferDatabase.new ⟨s, s⟩ fl).values, v.previous.isNone = false := by
    intro v hv
    obtain ⟨⟨k, v'⟩, hmem, rfl⟩ := List.mem_map.1 hv
    have hlk : lookupAL (DifferDatabase.new ⟨s, s⟩ fl).tables k = some v' :=
      lookupAL_of_mem _ _ _ (nodup_keys_new_tables _ _) hmem
    have hchar : (if lastMatch fl k s.tables = none ∧ lastMatch fl k s.tables = none then none
        else some (Pair.mk (lastMatch fl k s.tables) (lastMatch fl k s.tables))) = some v' := by
      rw [← lookupAL_new_tables ⟨s, s⟩ fl k]
      exact hlk
    by_cases h : lastMatch fl k s.tables = none
    · rw [if_pos ⟨h, h⟩] at hchar
      exact absurd hchar (by simp)
    · rw [if_neg (fun hh => h hh.1)] at hchar
      obtain ⟨j, hj⟩ := Option.ne_none_iff_exists'.1 h
      obtain rfl := Option.some.inj hchar
      simp [hj]
  have hfil : (DifferDatabase.new ⟨s, s⟩ fl).values.filter (fun t => t.previous.isNone) = [] := by
    rw [List.filter_eq_nil_iff]
    intro a ha
    simp [hval a ha]
  refine ⟨?_, ?_, ?_⟩
  · simp only [DifferDatabase.created_tables, created_tables_of, hfil, List.filterMap_nil]
  · simp only [DifferDatabase.dropped_tables, dropped_tables_of, hfil, List.filterMap_nil]
  · intro i hi
    obtain ⟨tb, htb⟩ : ∃ tb, s.tables[i]? = some tb := ⟨_, List.getElem?_eq_getElem hi⟩
    have hlm : lastMatch fl (fl.normalize_table_name tb.name) s.tables = some i :=
      lastMatch_of_nodup fl _ s.tables i tb hvalid htb rfl
    have hlk : lookupAL (DifferDatabase.new ⟨s, s⟩ fl).tables
        (fl.normalize_table_name tb.name) = some ⟨some i, some i⟩ := by
      have hchar := lookupAL_new_tables ⟨s, s⟩ fl (fl.normalize_table_name tb.name)
      have hchar' : lookupAL (DifferDatabase.new ⟨s, s⟩ fl).tables
          (fl.normalize_table_name tb.name) =
          (if lastMatch fl (fl.normalize_table_name tb.name) s.tables = none ∧
              lastMatch fl (fl.normalize_table_name tb.name) s.tables = none then none
            else some (Pair.mk (lastMatch fl (fl.normalize_table_name tb.name) s.tables)
              (lastMatch fl (fl.normalize_table_name tb.name) s.tables))) := hchar
      rw [hchar', hlm]
      rw [if_neg (by simp)]
    have hvmem : (⟨some i, some i⟩ : Pair (Option Nat)) ∈ (DifferDatabase.new ⟨s, s⟩ fl).values :=
      List.mem_map_of_mem Prod.snd (mem_of_lookupAL _ _ _ hlk)
    simp only [DifferDatabase.table_pairs, table_pairs_of]
    exact List.mem_filterMap.2 ⟨⟨some i, some i⟩, hvmem, rfl⟩

/-- C5 witness: the two-table snapshot {"a", "b"} diffed against itself under
the identity flavour. -/
theorem C5_witness :
    (DifferDatabase.new ⟨⟨[⟨"a", []⟩, ⟨"b", []⟩], []⟩, ⟨[⟨"a", []⟩, ⟨"b", []⟩], []⟩⟩
      idFlavour).created_tables = [] ∧
    (DifferDatabase.new ⟨⟨[⟨"a", []⟩, ⟨"b", []⟩], []⟩, ⟨[⟨"a", []⟩, ⟨"b", []⟩], []⟩⟩
      idFlavour).dropped_tables = [] ∧
    (⟨0, 0⟩ : Pair Nat) ∈ (DifferDatabase.new ⟨⟨[⟨"a", []⟩, ⟨"b", []⟩], []⟩,
      ⟨[⟨"a", []⟩, ⟨"b", []⟩], []⟩⟩ idFlavour).table_pairs := by
  have h := C5_self_diff idFlavour ⟨[⟨"a", []⟩, ⟨"b", []⟩], []⟩ (by decide)
  exact ⟨h.1, h.2.1, h.2.2 0 (by decide)⟩

/-- C6 counterexample: the pairing index of previous = {}, next = {"a", "b"}
admits the reversed value enumeration as another hash-map iteration order, and
under it `created_tables` yields the tables in a different order: the sequence
order is a property of the map's iteration order, not of the input schemas. -/
theorem C6_order_counterexample :
    List.Perm [(⟨none, some 1⟩ : Pair (Option Nat)), ⟨none, some 0⟩]
      (DifferDatabase.new ⟨⟨[], []⟩, ⟨[⟨"a", []⟩, ⟨"b", []⟩], []⟩⟩ idFlavour).values ∧
    created_tables_of [(⟨none, some 1⟩ : Pair (Option Nat)), ⟨none, some 0⟩] ≠
      (DifferDatabase.new ⟨⟨[], []⟩, ⟨[⟨"a", []⟩, ⟨"b", []⟩], []⟩⟩ idFlavour).created_tables := by
  constructor
  · decide
  · decide

/-- C6 amended: the diff outputs are deterministic up to order — any two
enumerations of the same table-map bindings yield permutations of the same
created, dropped and paired table multisets. -/
theorem C6_deterministic_up_to_order (vals vals' : List (Pair (Option Nat)))
    (h : vals.Perm vals') :
    (created_tables_of vals).Perm (created_tables_of vals') ∧
    (dropped_tables_of vals).Perm (dropped_tables_of vals') ∧
    (table_pairs_of vals).Perm (table_pairs_of vals') :=
  ⟨(h.filter _).filterMap _, (h.filter _).filterMap _, h.filterMap _⟩

/-- C6 witness: the amended statement at the two-element enumeration and its
reversal. -/
theorem C6_witness :
    (created_tables_of [(⟨none, some 0⟩ : Pair (Option Nat)), ⟨none, some 1⟩]).Perm
      (created_tables_of [⟨none, some 1⟩, ⟨none, some 0⟩]) ∧
    (dropped_tables_of [(⟨none, some 0⟩ : Pair (Option Nat)), ⟨none, some 1⟩]).Perm
      (dropped_tables_of [⟨none, some 1⟩, ⟨none, some 0⟩]) ∧
    (table_pairs_of [(⟨none, some 0⟩ : Pair (Option Nat)), ⟨none, some 1⟩]).Perm
      (table_pairs_of [⟨none, some 1⟩, ⟨none, some 0⟩]) :=
  C6_deterministic_up_to_order _ _ (by decide)

/-- C7 counterexample: enum correspondence is not built in O(entity count)
time — no affine bound in the entity count covers the number of
`enums_match` evaluations performed by the nested iteration of
`created_enums`. -/
theorem C7_counterexample :
    ¬ ∃ c c₀ : Nat, ∀ s : Pair SqlSchema,
      created_enums_cost s.previous.enums s.next.enums ≤
        c * (s.previous.enums.length + s.next.enums.length) + c₀ := by
  rintro ⟨c, c₀, h⟩
  have h1 := h ⟨⟨[], List.replicate (2 * c + c₀ + 1) ⟨"x", []⟩⟩,
    ⟨[], List.replicate (2 * c + c₀ + 1) ⟨"y", []⟩⟩⟩
  have h2 : created_enums_cost (List.replicate (2 * c + c₀ + 1) ⟨"x", []⟩)
      (List.replicate (2 * c + c₀ + 1) ⟨"y", []⟩) ≤
      c * ((List.replicate (2 * c + c₀ + 1) (SqlEnum.mk "x" [])).length +
        (List.replicate (2 * c + c₀ + 1) (SqlEnum.mk "y" [])).length) + c₀ := h1
  rw [created_enums_cost_replicate, List.length_replicate, List.length_replicate] at h2
  nlinarith

/-- C7 amended: table and column correspondence are built by single hashed
passes, but the enum correspondence (`created_enums` and its siblings) is
computed by nested iteration over both enum collections: on two collections of
`n` unmatched enums each it performs `n * n` comparisons, quadratic in the
entity count. -/
theorem C7_enum_pairing_quadratic (n : Nat) :
    created_enums_cost (List.replicate n ⟨"x", []⟩) (List.replicate n ⟨"y", []⟩) = n * n :=
  created_enums_cost_replicate n

/-- C8 counterexample: previous = {"Foo"(col "c"), "foo"}, next = {"Foo"(col
"c")} under the case-insensitive flavour.  The column entry ("Foo", "c") has
both sides present and is owned by previous table 0 and next table 0, yet the
only matched table pair of the index is (1, 0): last-write-wins on the
colliding normalized key "foo" kept previous table 1, so the owning tables do
not form a pair of the index. -/
theorem C8_counterexample :
    lookupAL (DifferDatabase.new ⟨⟨[⟨"Foo", [⟨"c"⟩]⟩, ⟨"foo", []⟩], []⟩,
      ⟨[⟨"Foo", [⟨"c"⟩]⟩], []⟩⟩ lowercaseFlavour).columns ("Foo", "c") =
      some ⟨some (0, 0), some (0, 0)⟩ ∧
    (DifferDatabase.new ⟨⟨[⟨"Foo", [⟨"c"⟩]⟩, ⟨"foo", []⟩], []⟩,
      ⟨[⟨"Foo", [⟨"c"⟩]⟩], []⟩⟩ lowercaseFlavour).table_pairs = [⟨1, 0⟩] := by
  decide

/-- C8 amended: when the flavour's normalization is collision-free on each
snapshot's table names, every column entry with both sides present is owned by
tables that form a matched pair of the index. -/
theorem C8_column_pairs_in_table_pairs (fl : Flavour) (s : Pair SqlSchema) (t c : String)
    (ti ci ti' ci' : Nat)
    (hprev : (s.previous.tables.map (fun tb => fl.normalize_table_name tb.name)).Nodup)
    (hnext : (s.next.tables.map (fun tb => fl.normalize_table_name tb.name)).Nodup)
    (hcol : lookupAL (DifferDatabase.new s fl).columns (t, c) =
      some ⟨some (ti, ci), some (ti', ci')⟩) :
    (⟨ti, ti'⟩ : Pair Nat) ∈ (DifferDatabase.new s fl).table_pairs := by
  rw [lookupAL_new_columns] at hcol
  by_cases h : lastColMatch t c s.previous.tables = none ∧
      lastColMatch t c s.next.tables = none
  · rw [if_pos h] at hcol
    exact absurd hcol (by simp)
  · rw [if_neg h] at hcol
    have hinj := Option.some.inj hcol
    have hp : lastColMatch t c s.previous.tables = some (ti, ci) :=
      congrArg Pair.previous hinj
    have hn : lastColMatch t c s.next.tables = some (ti', ci') :=
      congrArg Pair.next hinj
    obtain ⟨tb, htb, htbname, -⟩ := lastColMatch_spec t c s.previous.tables (ti, ci) hp
    obtain ⟨tb', htb', htbname', -⟩ := lastColMatch_spec t c s.next.tables (ti', ci') hn
    have h1 : lastMatch fl (fl.normalize_table_name t) s.previous.tables = some ti :=
      lastMatch_of_nodup fl _ _ ti tb hprev htb (by rw [htbname])
    have h2 : lastMatch fl (fl.normalize_table_name t) s.next.tables = some ti' :=
      lastMatch_of_nodup fl _ _ ti' tb' hnext htb' (by rw [htbname'])
    have hlk : lookupAL (DifferDatabase.new s fl).tables (fl.normalize_table_name t) =
        some ⟨some ti, some ti'⟩ := by
      rw [lookupAL_new_tables, h1, h2]
      rw [if_neg (by simp)]
    have hvmem : (⟨some ti, some ti'⟩ : Pair (Option Nat)) ∈ (DifferDatabase.new s fl).values :=
      List.mem_map_of_mem Prod.snd (mem_of_lookupAL _ _ _ hlk)
    simp only [DifferDatabase.table_pairs, table_pairs_of]
    exact List.mem_filterMap.2 ⟨⟨some ti, some ti'⟩, hvmem, rfl⟩

/-- C8 witness: a collision-free pair of snapshots, each with table "t" and
column "c"; the owning tables (0, 0) form a matched pair. -/
theorem C8_witness :
    (⟨0, 0⟩ : Pair Nat) ∈ (DifferDatabase.new ⟨⟨[⟨"t", [⟨"c"⟩]⟩], []⟩,
      ⟨[⟨"t", [⟨"c"⟩]⟩], []⟩⟩ idFlavour).table_pairs :=
  C8_column_pairs_in_table_pairs idFlavour _ "t" "c" 0 0 0 0 (by decide) (by decide) (by decide)

/-- C9: after construction, every binding of the table map and of the column
map has at least one side present — no `Pair` with both components absent is
ever stored. -/
theorem C9_no_empty_pair (fl : Flavour) (s : Pair SqlSchema) :
    (∀ v ∈ (DifferDatabase.new s fl).tables.map Prod.snd,
      v.previous.isSome ∨ v.next.isSome) ∧
    (∀ v ∈ (DifferDatabase.new s fl).columns.map Prod.snd,
      v.previous.isSome ∨ v.next.isSome) := by
  constructor
  · intro v hv
    obtain ⟨⟨k, v'⟩, hmem, rfl⟩ := List.mem_map.1 hv
    have hlk := lookupAL_of_mem _ _ _ (nodup_keys_new_tables s fl) hmem
    rw [lookupAL_new_tables] at hlk
    by_cases h : lastMatch fl k s.previous.tables = none ∧ lastMatch fl k s.next.tables = none
    · rw [if_pos h] at hlk
      exact absurd hlk (by simp)
    · rw [if_neg h] at hlk
      obtain rfl := Option.some.inj hlk
      rcases not_and_or.1 h with h' | h'
      · exact Or.inl (Option.isSome_iff_ne_none.2 h')
      · exact Or.inr (Option.isSome_iff_ne_none.2 h')
  · intro v hv
    obtain ⟨⟨⟨kt, kc⟩, v'⟩, hmem, rfl⟩ := List.mem_map.1 hv
    have hlk := lookupAL_of_mem _ _ _ (nodup_keys_new_columns s fl) hmem
    rw [lookupAL_new_columns] at hlk
    by_cases h : lastColMatch kt kc s.previous.tables = none ∧
        lastColMatch kt kc s.next.tables = none
    · rw [if_pos h] at hlk
      exact absurd hlk (by simp)
    · rw [if_neg h] at hlk
      obtain rfl := Option.some.inj hlk
      rcases not_and_or.1 h with h' | h'
      · exact Or.inl (Option.isSome_iff_ne_none.2 h')
      · exact Or.inr (Option.isSome_iff_ne_none.2 h')

/-- C9 witness: the single binding of the table map of previous = {"a"},
next = {} has its previous side present. -/
theorem C9_witness :
    (⟨some 0, none⟩ : Pair (Option Nat)).previous.isSome ∨
    (⟨some 0, none⟩ : Pair (Option Nat)).next.isSome :=
  (C9_no_empty_pair idFlavour ⟨⟨[⟨"a", []⟩], []⟩, ⟨[], []⟩⟩).1 ⟨some 0, none⟩ (by decide)

/-- C10: `previous_tables()` and `next_tables()` never yield the migrations
bookkeeping table `"_prisma_migrations"`, whatever the flavour's own
ignored-table predicate says; `created_tables()` and `dropped_tables()` apply
no such filter — under a flavour that marks "zzz" as ignored, the created
next-only table "zzz" is still yielded by both. -/
theorem C10_ignored_tables (fl : Flavour) (s : Pair SqlSchema) :
    (∀ it ∈ (DifferDatabase.new s fl).previous_tables, it.2.name ≠ "_prisma_migrations") ∧
    (∀ it ∈ (DifferDatabase.new s fl).next_tables, it.2.name ≠ "_prisma_migrations") ∧
    ignoringFlavour.table_should_be_ignored "zzz" = true ∧
    (DifferDatabase.new ⟨⟨[], []⟩, ⟨[⟨"zzz", []⟩], []⟩⟩ ignoringFlavour).created_tables = [0] ∧
    (DifferDatabase.new ⟨⟨[], []⟩, ⟨[⟨"zzz", []⟩], []⟩⟩ ignoringFlavour).dropped_tables = [0] := by
  refine ⟨?_, ?_, by decide, by decide, by decide⟩
  · intro it hit
    have h := (List.mem_filter.1 hit).2
    simp only [DifferDatabase.table_is_ignored, Bool.not_eq_true', Bool.or_eq_false_iff,
      beq_eq_false_iff_ne] at h
    exact h.1
  · intro it hit
    have h := (List.mem_filter.1 hit).2
    simp only [DifferDatabase.table_is_ignored, Bool.not_eq_true', Bool.or_eq_false_iff,
      beq_eq_false_iff_ne] at h
    exact h.1

/-- C10 witness: the table "t" of previous = {"t"} is yielded and is not the
bookkeeping table. -/
theorem C10_witness :
    ((0 : Nat), Table.mk "t" []).2.name ≠ "_prisma_migrations" :=
  (C10_ignored_tables idFlavour ⟨⟨[⟨"t", []⟩], []⟩, ⟨[], []⟩⟩).1 (0, ⟨"t", []⟩) (by decide)
